import Mathlib

/-!
Shallow embedding, in Lean 4, of the timer-driven parts of the
React-TypeScript-Base-Template repository:

* `Debounce` models the advanced debounced-invocation controller of
  `src/hooks/useDebounce.ts` (`useAdvancedDebounce`): the refs
  `timeoutRef`, `argsRef`, the `isPending` state, the currently bound
  callback (`callbackRef`), and the host timer service (`setTimeout` /
  `clearTimeout`) as an explicit list of live timers.  The bound action is
  identified by a natural number; whether an invocation of action `i` on
  arguments `a` raises is supplied by a function `throws i a`, and every
  operation that may invoke the action reports the raised error to its
  caller as a Boolean, modelling uncaught propagation.  A statement of the
  source that runs after an invocation is skipped when the invocation
  throws, exactly as in JavaScript.

* `Toast` models the toast store of `src/contexts/ToastContext.tsx`:
  `notify`, `dismiss`, `dismissAll`, and the auto-dismiss timers that
  `notify` schedules for toasts with a positive duration.
-/

namespace Debounce

/-- One observable invocation of the bound action: which action was
invoked (the value of `callbackRef.current` at invocation time), with
which arguments, and at which instant. -/
structure Call (α : Type) where
  action : Nat
  args : α
  time : Nat
deriving Repr, DecidableEq

/-- The controller state of `useAdvancedDebounce`, together with the host
timer service.  `live` is the set of timers the host currently has
scheduled, as pairs `(handle, fireAt)`; `nextHandle` is the next fresh
handle `setTimeout` would return; `timeoutRef`, `argsRef`, `isPending`
and `callbackRef` are the corresponding pieces of React state of the
hook.  `callbackRef` holds the identifier of the currently bound action. -/
structure DState (α : Type) where
  live : List (Nat × Nat)
  nextHandle : Nat
  timeoutRef : Option Nat
  argsRef : Option α
  isPending : Bool
  callbackRef : Nat
deriving Repr, DecidableEq

/-- The host's `clearTimeout`: the timer with the given handle, if still
scheduled, is removed and never fires. -/
def clearTimeout (live : List (Nat × Nat)) (h : Nat) : List (Nat × Nat) :=
  live.filter fun p => decide (p.1 ≠ h)

/-- The state of a freshly mounted hook bound to action `cb`: no live
timer, no stored arguments, not pending. -/
def initState (α : Type) (cb nh : Nat) : DState α :=
  { live := [], nextHandle := nh, timeoutRef := none, argsRef := none,
    isPending := false, callbackRef := cb }

/-- `cancel` (useDebounce.ts lines 115-122): when `timeoutRef.current` is
set, clear the timer, reset the ref, discard the stored arguments and
clear the pending flag; otherwise do nothing. -/
def cancel {α : Type} (s : DState α) : DState α :=
  match s.timeoutRef with
  | some h =>
      { s with live := clearTimeout s.live h, timeoutRef := none,
               argsRef := none, isPending := false }
  | none => s

/-- `flush` (useDebounce.ts lines 124-132): when both `timeoutRef.current`
and `argsRef.current` are set, clear the timer and the ref, invoke the
bound action synchronously with the stored arguments, then discard the
arguments and clear the pending flag.  When the action throws, the
statements after the invocation are skipped and the error propagates to
the caller (the returned Boolean). -/
def flush {α : Type} (throws : Nat → α → Bool) (t : Nat) (s : DState α) :
    DState α × List (Call α) × Bool :=
  match s.timeoutRef, s.argsRef with
  | some h, some a =>
      let s1 : DState α :=
        { s with live := clearTimeout s.live h, timeoutRef := none }
      if throws s.callbackRef a then
        (s1, [⟨s.callbackRef, a, t⟩], true)
      else
        ({ s1 with argsRef := none, isPending := false },
         [⟨s.callbackRef, a, t⟩], false)
  | _, _ => (s, [], false)

/-- The body of `debounced` (useDebounce.ts lines 134-154), called
`trigger` in the specification: store the arguments, clear any previous
timer, set the pending flag, and schedule a fresh timer that fires
`delay` after the current instant `t`. -/
def trigger {α : Type} (delay t : Nat) (a : α) (s : DState α) : DState α :=
  let s1 : DState α := { s with argsRef := some a }
  let s2 : DState α :=
    match s1.timeoutRef with
    | some h => { s1 with live := clearTimeout s1.live h }
    | none => s1
  { s2 with isPending := true,
            live := s2.live ++ [(s2.nextHandle, t + delay)],
            timeoutRef := some s2.nextHandle,
            nextHandle := s2.nextHandle + 1 }

/-- The timer callback scheduled by `debounced` (useDebounce.ts lines
144-151), run when the host delivers the timer: when arguments are
stored, invoke the bound action with them and discard them, then reset
the ref and clear the pending flag.  When the action throws, every
statement after the invocation is skipped and the error propagates to the
event loop (the returned Boolean). -/
def fireCallback {α : Type} (throws : Nat → α → Bool) (t : Nat) (s : DState α) :
    DState α × List (Call α) × Bool :=
  match s.argsRef with
  | some a =>
      if throws s.callbackRef a then
        (s, [⟨s.callbackRef, a, t⟩], true)
      else
        ({ s with argsRef := none, timeoutRef := none, isPending := false },
         [⟨s.callbackRef, a, t⟩], false)
  | none =>
      ({ s with timeoutRef := none, isPending := false }, [], false)

/-- Delivery of the scheduled timer with handle `h` at instant `t`: the
host consumes the timer, then runs the callback of `debounced`. -/
def fire {α : Type} (throws : Nat → α → Bool) (h t : Nat) (s : DState α) :
    DState α × List (Call α) × Bool :=
  fireCallback throws t { s with live := s.live.filter fun p => decide (p.1 ≠ h) }

/-- Rebinding the action (useDebounce.ts lines 111-113): the effect
`callbackRef.current = callback` replaces the bound action and touches
nothing else. -/
def rebind {α : Type} (f : Nat) (s : DState α) : DState α :=
  { s with callbackRef := f }

/-- The events the controller can undergo. -/
inductive Ev (α : Type) where
  | trigger (a : α)
  | cancel
  | flush
  | fire (h : Nat)
  | rebind (f : Nat)
deriving Repr, DecidableEq

/-- One event applied to the state at instant `t`: the resulting state,
the invocations it performed, and whether the bound action threw. -/
def step {α : Type} (throws : Nat → α → Bool) (delay : Nat) (s : DState α)
    (t : Nat) : Ev α → DState α × List (Call α) × Bool
  | .trigger a => (trigger delay t a s, [], false)
  | .cancel => (cancel s, [], false)
  | .flush => flush throws t s
  | .fire h => fire throws h t s
  | .rebind f => (rebind f s, [], false)

/-- Running a timed event list: the final state and the concatenated
invocation log. -/
def run {α : Type} (throws : Nat → α → Bool) (delay : Nat) :
    DState α → List (Nat × Ev α) → DState α × List (Call α)
  | s, [] => (s, [])
  | s, (t, e) :: rest =>
      let r := step throws delay s t e
      let r2 := run throws delay r.1 rest
      (r2.1, r.2.1 ++ r2.2)

/-- Whether, at instant `t`, the host permits the event: a timer fires
exactly at its scheduled instant and only while scheduled, and every
other event happens strictly before any live timer is due (otherwise the
host would have fired that timer first). -/
def evOK {α : Type} (s : DState α) (t : Nat) : Ev α → Bool
  | .fire h => s.live.contains (h, t)
  | _ => s.live.all fun p => decide (t < p.2)

/-- A timed event list every event of which the host permits at its
instant. -/
def timely {α : Type} (throws : Nat → α → Bool) (delay : Nat) :
    DState α → List (Nat × Ev α) → Bool
  | _, [] => true
  | s, (t, e) :: rest =>
      evOK s t e && timely throws delay (step throws delay s t e).1 rest

/-- An action that never throws. -/
def noThrow {α : Type} : Nat → α → Bool := fun _ _ => false

/-- The idle shape of the controller state: nothing scheduled, nothing
stored, not pending. -/
def IdleSt {α : Type} (s : DState α) : Prop :=
  s.live = [] ∧ s.timeoutRef = none ∧ s.argsRef = none ∧ s.isPending = false

/-- The pending shape of the controller state: exactly one live timer,
whose handle the ref stores, with stored arguments and the pending flag
set. -/
def PendSt {α : Type} (s : DState α) : Prop :=
  ∃ h ft a, s.live = [(h, ft)] ∧ s.timeoutRef = some h ∧
    s.argsRef = some a ∧ s.isPending = true

/-- The controller invariant: the state is in the idle or the pending
shape. -/
def Inv {α : Type} (s : DState α) : Prop := IdleSt s ∨ PendSt s

/-- The pending state with one timer `(h, ft)`, stored arguments `a`,
bound action `cb` and next fresh handle `nh`. -/
def pendState (α : Type) (cb nh h ft : Nat) (a : α) : DState α :=
  { live := [(h, ft)], nextHandle := nh, timeoutRef := some h,
    argsRef := some a, isPending := true, callbackRef := cb }

/-- Whether, at instant `t`, the host can deliver event `e` in state `s`
(propositional form of `evOK`, but without the strictly-before-due
requirement on non-fire events; used for reachability). -/
def evAllowed {α : Type} (s : DState α) (t : Nat) : Ev α → Prop
  | .fire h => (h, t) ∈ s.live
  | _ => True

/-- The states the controller can reach from a freshly mounted hook by
any sequence of host-permitted events. -/
inductive Reach {α : Type} (throws : Nat → α → Bool) (delay cb nh : Nat) :
    DState α → Prop where
  | init : Reach throws delay cb nh (initState α cb nh)
  | next {s : DState α} (t : Nat) (e : Ev α) (hs : Reach throws delay cb nh s)
      (he : evAllowed s t e) : Reach throws delay cb nh (step throws delay s t e).1

lemma trigger_of_inv {α : Type} {s : DState α} (hInv : Inv s)
    (delay t : Nat) (a : α) :
    trigger delay t a s =
      pendState α s.callbackRef (s.nextHandle + 1) s.nextHandle (t + delay) a := by
  obtain ⟨L, NH, R, A, P, CB⟩ := s
  rcases hInv with ⟨hL, hR, hA, hP⟩ | ⟨h, ft, a0, hL, hR, hA, hP⟩ <;>
    simp only at hL hR hA hP <;> subst hL <;> subst hR <;>
    simp [trigger, pendState, clearTimeout]

lemma cancel_of_pend {α : Type} (cb nh h ft : Nat) (a : α) :
    cancel (pendState α cb nh h ft a) = initState α cb nh := by
  simp [cancel, pendState, initState, clearTimeout]

lemma flush_of_pend_noThrow {α : Type} (cb nh h ft t : Nat) (a : α) :
    flush noThrow t (pendState α cb nh h ft a) =
      (initState α cb nh, [⟨cb, a, t⟩], false) := by
  simp [flush, pendState, initState, clearTimeout, noThrow]

lemma fire_of_pend_noThrow {α : Type} (cb nh h ft t : Nat) (a : α) :
    fire noThrow h t (pendState α cb nh h ft a) =
      (initState α cb nh, [⟨cb, a, t⟩], false) := by
  simp [fire, fireCallback, pendState, initState, noThrow]

lemma inv_init {α : Type} (cb nh : Nat) : Inv (initState α cb nh) :=
  Or.inl ⟨rfl, rfl, rfl, rfl⟩

lemma inv_pend {α : Type} (cb nh h ft : Nat) (a : α) :
    Inv (pendState α cb nh h ft a) :=
  Or.inr ⟨h, ft, a, rfl, rfl, rfl, rfl⟩

/-- The invariant is preserved by every host-permitted event, for a
never-throwing bound action. -/
lemma inv_step {α : Type} {s : DState α} (hInv : Inv s) (delay t : Nat)
    (e : Ev α) (he : evAllowed s t e) :
    Inv (step (noThrow (α := α)) delay s t e).1 := by
  cases e with
  | trigger a =>
      rw [show (step noThrow delay s t (Ev.trigger a)).1 =
        trigger delay t a s from rfl, trigger_of_inv hInv]
      exact inv_pend ..
  | cancel =>
      rcases hInv with hIdle | ⟨h, ft, a, hL, hR, hA, hP⟩
      · obtain ⟨hL, hR, hA, hP⟩ := hIdle
        simp only [step, cancel, hR]
        exact Or.inl ⟨hL, hR, hA, hP⟩
      · obtain ⟨L, NH, R, A, P, CB⟩ := s
        simp only at hL hR hA hP
        subst hL; subst hR; subst hA; subst hP
        show Inv (cancel (pendState α CB NH h ft a))
        rw [cancel_of_pend]
        exact inv_init ..
  | flush =>
      rcases hInv with hIdle | ⟨h, ft, a, hL, hR, hA, hP⟩
      · obtain ⟨hL, hR, hA, hP⟩ := hIdle
        simp only [step, flush, hR]
        exact Or.inl ⟨hL, hR, hA, hP⟩
      · obtain ⟨L, NH, R, A, P, CB⟩ := s
        simp only at hL hR hA hP
        subst hL; subst hR; subst hA; subst hP
        show Inv (flush noThrow t (pendState α CB NH h ft a)).1
        rw [flush_of_pend_noThrow]
        exact inv_init ..
  | fire h0 =>
      rcases hInv with hIdle | ⟨h, ft, a, hL, hR, hA, hP⟩
      · obtain ⟨hL, hR, hA, hP⟩ := hIdle
        simp only [evAllowed, hL, List.not_mem_nil] at he
      · obtain ⟨L, NH, R, A, P, CB⟩ := s
        simp only at hL hR hA hP
        subst hL; subst hR; subst hA; subst hP
        simp only [evAllowed, List.mem_singleton, Prod.mk.injEq] at he
        obtain ⟨h1, -⟩ := he
        show Inv (fire noThrow h0 t (pendState α CB NH h ft a)).1
        rw [h1, fire_of_pend_noThrow]
        exact inv_init ..
  | rebind f =>
      rcases hInv with ⟨hL, hR, hA, hP⟩ | ⟨h, ft, a, hL, hR, hA, hP⟩
      · exact Or.inl ⟨hL, hR, hA, hP⟩
      · exact Or.inr ⟨h, ft, a, hL, hR, hA, hP⟩

/-- Every reachable state of the never-throwing controller satisfies the
invariant. -/
lemma inv_of_reach {α : Type} {delay cb nh : Nat} {s : DState α}
    (hs : Reach (noThrow (α := α)) delay cb nh s) : Inv s := by
  induction hs with
  | init => exact inv_init ..
  | next t e _ he ih => exact inv_step ih delay t e he

/-- The timed event list of a burst of `trigger` calls. -/
def burstTrace {α : Type} (ts : List (Nat × α)) : List (Nat × Ev α) :=
  ts.map fun p => (p.1, Ev.trigger p.2)

/-- Whether consecutive calls of the burst are issued in order and within
strictly less than `d` of each other. -/
def gapsLT {α : Type} (d : Nat) : List (Nat × α) → Bool
  | [] => true
  | [_] => true
  | p :: q :: rest =>
      (decide (p.1 ≤ q.1) && decide (q.1 < p.1 + d)) && gapsLT d (q :: rest)

lemma trigger_init {α : Type} (d t cb nh : Nat) (a : α) :
    trigger d t a (initState α cb nh) = pendState α cb (nh + 1) nh (t + d) a :=
  trigger_of_inv (inv_init cb nh) d t a

lemma trigger_pend {α : Type} (d t cb nh h ft : Nat) (a b : α) :
    trigger d t b (pendState α cb nh h ft a) =
      pendState α cb (nh + 1) nh (t + d) b :=
  trigger_of_inv (inv_pend cb nh h ft a) d t b

lemma run_append {α : Type} (throws : Nat → α → Bool) (d : Nat)
    (l1 l2 : List (Nat × Ev α)) : ∀ s : DState α,
    run throws d s (l1 ++ l2) =
      ((run throws d (run throws d s l1).1 l2).1,
       (run throws d s l1).2 ++ (run throws d (run throws d s l1).1 l2).2) := by
  induction l1 with
  | nil => intro s; simp [run]
  | cons p rest ih =>
      intro s
      obtain ⟨t, e⟩ := p
      simp [run, ih, List.append_assoc]

lemma timely_append {α : Type} (throws : Nat → α → Bool) (d : Nat)
    (l1 l2 : List (Nat × Ev α)) : ∀ s : DState α,
    timely throws d s (l1 ++ l2) =
      (timely throws d s l1 && timely throws d (run throws d s l1).1 l2) := by
  induction l1 with
  | nil => intro s; simp [timely, run]
  | cons p rest ih =>
      intro s
      obtain ⟨t, e⟩ := p
      simp [timely, run, ih, Bool.and_assoc]

lemma run_burstTrace {α : Type} (throws : Nat → α → Bool) (d : Nat)
    (ts : List (Nat × α)) : ∀ s : DState α,
    run throws d s (burstTrace ts) =
      (ts.foldl (fun s p => trigger d p.1 p.2 s) s, []) := by
  induction ts with
  | nil => intro s; simp [burstTrace, run]
  | cons p rest ih =>
      intro s
      obtain ⟨t, a⟩ := p
      simp only [burstTrace, List.map_cons, run, step, List.foldl_cons,
        List.nil_append]
      exact ih (trigger d t a s)

lemma foldl_trigger_from {α : Type} (d : Nat) (rest : List (Nat × α)) :
    ∀ (cb nh t0 : Nat) (a0 : α),
    rest.foldl (fun s p => trigger d p.1 p.2 s)
        (pendState α cb (nh + 1) nh (t0 + d) a0) =
      pendState α cb (nh + rest.length + 1) (nh + rest.length)
        ((rest.getLast?.getD (t0, a0)).1 + d) (rest.getLast?.getD (t0, a0)).2 := by
  induction rest with
  | nil => intro cb nh t0 a0; simp
  | cons q rest2 ih =>
      intro cb nh t0 a0
      obtain ⟨tq, aq⟩ := q
      rw [List.foldl_cons, trigger_pend, ih cb (nh + 1) tq aq]
      rw [List.getLast?_cons]
      have e1 : nh + 1 + rest2.length = nh + ((tq, aq) :: rest2).length := by
        simp only [List.length_cons]
        omega
      rw [e1]
      simp only [Option.getD_some]

lemma run_burst_init {α : Type} (throws : Nat → α → Bool) (d cb nh : Nat)
    (ts : List (Nat × α)) (tl : Nat) (al : α)
    (hlast : ts.getLast? = some (tl, al)) :
    run throws d (initState α cb nh) (burstTrace ts) =
      (pendState α cb (nh + ts.length) (nh + ts.length - 1) (tl + d) al, []) := by
  rw [run_burstTrace]
  cases ts with
  | nil => simp at hlast
  | cons p rest =>
      obtain ⟨t0, a0⟩ := p
      rw [List.getLast?_cons, Option.some.injEq] at hlast
      rw [List.foldl_cons, trigger_init, foldl_trigger_from, hlast]
      have e1 : nh + rest.length + 1 = nh + ((t0, a0) :: rest).length := by
        simp only [List.length_cons]
        omega
      have e2 : nh + rest.length = nh + ((t0, a0) :: rest).length - 1 := by
        simp only [List.length_cons]
        omega
      rw [e1, e2]

lemma timely_burst_from {α : Type} (throws : Nat → α → Bool) (d : Nat)
    (rest : List (Nat × α)) : ∀ (cb nh t0 : Nat) (a0 : α),
    gapsLT d ((t0, a0) :: rest) = true →
    timely throws d (pendState α cb (nh + 1) nh (t0 + d) a0) (burstTrace rest) =
      true := by
  induction rest with
  | nil => intro cb nh t0 a0 _; simp [burstTrace, timely]
  | cons q rest2 ih =>
      intro cb nh t0 a0 hg
      obtain ⟨tq, aq⟩ := q
      simp only [gapsLT, Bool.and_eq_true, decide_eq_true_eq] at hg
      obtain ⟨⟨hle, hlt⟩, hg2⟩ := hg
      simp only [burstTrace, List.map_cons, timely, Bool.and_eq_true]
      constructor
      · simp [evOK, pendState, hlt]
      · show timely throws d (trigger d tq aq (pendState α cb (nh + 1) nh (t0 + d) a0))
          (burstTrace rest2) = true
        rw [trigger_pend]
        exact ih cb (nh + 1) tq aq hg2

lemma timely_burst_init {α : Type} (throws : Nat → α → Bool) (d cb nh : Nat)
    (ts : List (Nat × α)) (hg : gapsLT d ts = true) :
    timely throws d (initState α cb nh) (burstTrace ts) = true := by
  cases ts with
  | nil => simp [burstTrace, timely]
  | cons p rest =>
      obtain ⟨t0, a0⟩ := p
      simp only [burstTrace, List.map_cons, timely, Bool.and_eq_true]
      constructor
      · simp [evOK, initState]
      · show timely throws d (trigger d t0 a0 (initState α cb nh))
          (burstTrace rest) = true
        rw [trigger_init]
        exact timely_burst_from throws d rest cb nh t0 a0 hg

lemma fire_pend_parts {α : Type} (throws : Nat → α → Bool)
    (cb nh h ft t : Nat) (a : α) :
    (fire throws h t (pendState α cb nh h ft a)).2.1 = [⟨cb, a, t⟩] ∧
    (fire throws h t (pendState α cb nh h ft a)).1.live = [] := by
  by_cases hth : throws cb a = true <;>
    simp [fire, fireCallback, pendState, hth]

lemma gaps_le_last {α : Type} (d : Nat) : ∀ (ts : List (Nat × α)) (tl : Nat)
    (al : α), gapsLT d ts = true → ts.getLast? = some (tl, al) →
    ∀ p ∈ ts, p.1 ≤ tl := by
  intro ts
  induction ts with
  | nil => intro tl al _ hlast; simp at hlast
  | cons p rest ih =>
      intro tl al hg hlast q hq
      cases rest with
      | nil =>
          simp only [List.getLast?_singleton, Option.some.injEq] at hlast
          simp only [List.mem_singleton] at hq
          subst hq
          subst hlast
          simp
      | cons r rest2 =>
          rw [List.getLast?_cons_cons] at hlast
          simp only [gapsLT, Bool.and_eq_true, decide_eq_true_eq] at hg
          obtain ⟨⟨hle, -⟩, hg2⟩ := hg
          rcases List.mem_cons.mp hq with hq1 | hq2
          · subst hq1
            calc q.1 ≤ r.1 := hle
              _ ≤ tl := ih tl al hg2 hlast r (List.mem_cons_self r rest2)
          · exact ih tl al hg2 hlast q hq2

end Debounce

namespace Debounce

/-- Claim C1: for every burst of `trigger` calls in which each call is
issued less than `delay` after the previous one, the host permits the
burst followed by exactly one timer delivery `delay` after the final
call; that run performs exactly one execution of the bound action, with
exactly the arguments of the final `trigger` call, at an instant no
earlier than any call of the burst, and leaves no scheduled execution
behind — the arguments of every earlier trigger are discarded, never
queued. -/
theorem burst_single_execution_last_args {α : Type}
    (throws : Nat → α → Bool) (d cb nh : Nat) (ts : List (Nat × α))
    (tl : Nat) (al : α) (hlast : ts.getLast? = some (tl, al))
    (hg : gapsLT d ts = true) :
    (run throws d (initState α cb nh)
        (burstTrace ts ++ [(tl + d, Ev.fire (nh + ts.length - 1))])).2 =
      [⟨cb, al, tl + d⟩] ∧
    (run throws d (initState α cb nh)
        (burstTrace ts ++ [(tl + d, Ev.fire (nh + ts.length - 1))])).1.live =
      [] ∧
    timely throws d (initState α cb nh)
        (burstTrace ts ++ [(tl + d, Ev.fire (nh + ts.length - 1))]) = true ∧
    ∀ p ∈ ts, p.1 ≤ tl := by
  have hrun := run_burst_init throws d cb nh ts tl al hlast
  have hf := fire_pend_parts throws cb (nh + ts.length) (nh + ts.length - 1)
    (tl + d) (tl + d) al
  refine ⟨?_, ?_, ?_, gaps_le_last d ts tl al hg hlast⟩
  · rw [run_append, hrun]
    simp only [run, step, List.append_nil, List.nil_append]
    exact hf.1
  · rw [run_append, hrun]
    simp only [run, step, List.append_nil, List.nil_append]
    exact hf.2
  · rw [timely_append, hrun]
    simp only [Bool.and_eq_true]
    refine ⟨timely_burst_init throws d cb nh ts hg, ?_⟩
    simp [timely, evOK, pendState]

theorem burst_single_execution_witness :
    (run (noThrow (α := String)) 300 (initState String 0 0)
        (burstTrace [(0, "a"), (100, "b"), (150, "c")] ++
          [(450, Ev.fire 2)])).2 = [⟨0, "c", 450⟩] :=
  (burst_single_execution_last_args noThrow 300 0 0
    [(0, "a"), (100, "b"), (150, "c")] 150 "c" (by decide) (by decide)).1

/-- Claim C2: every state reachable by host-permitted trigger, cancel,
flush and timer-fire events (with a never-throwing bound action) has at
most one scheduled future execution, and the pending flag is true iff a
scheduled execution exists; in particular it is true immediately after
`trigger` and false immediately after the timer fires, after `cancel`,
and after `flush`. -/
theorem reachable_pending_iff_scheduled {α : Type} {d cb nh : Nat}
    {s : DState α} (hs : Reach (noThrow (α := α)) d cb nh s) :
    s.live.length ≤ 1 ∧
    (s.isPending = true ↔ s.live ≠ []) ∧
    (∀ t a, (trigger d t a s).isPending = true) ∧
    (cancel s).isPending = false ∧
    (∀ t, (flush (noThrow (α := α)) t s).1.isPending = false) ∧
    (∀ h t, (h, t) ∈ s.live →
      (fire (noThrow (α := α)) h t s).1.isPending = false) := by
  have hInv := inv_of_reach hs
  obtain ⟨L, NH, R, A, P, CB⟩ := s
  rcases hInv with ⟨hL, hR, hA, hP⟩ | ⟨h, ft, a, hL, hR, hA, hP⟩ <;>
    simp only at hL hR hA hP <;>
    subst hL <;> subst hR <;> subst hA <;> subst hP
  · exact ⟨by simp, by simp, fun t a => by simp [trigger],
      by simp [cancel], fun t => by simp [flush],
      fun h t hmem => by simp at hmem⟩
  · exact ⟨by simp, by simp, fun t a => by simp [trigger, clearTimeout],
      by simp [cancel], fun t => by simp [flush, noThrow],
      fun h0 t hmem => by simp [fire, fireCallback, noThrow]⟩

theorem reachable_pending_witness :
    ((step (noThrow (α := Nat)) 300 (initState Nat 0 0) 0
        (Ev.trigger 7)).1.isPending = true ↔
      (step (noThrow (α := Nat)) 300 (initState Nat 0 0) 0
        (Ev.trigger 7)).1.live ≠ []) :=
  (reachable_pending_iff_scheduled
    (Reach.next 0 (Ev.trigger 7) Reach.init trivial)).2.1

/-- Claim C3: flushing while an execution is pending (after a trigger,
before the delay elapses) performs exactly one execution of the bound
action, synchronously within the flush call, with the arguments of the
most recent trigger; afterwards the stored arguments are discarded and
the pending flag is false. -/
theorem flush_executes_pending_now {α : Type} (s : DState α) (hInv : Inv s)
    (d t t' : Nat) (a : α) :
    flush (noThrow (α := α)) t' (trigger d t a s) =
      ({ live := [], nextHandle := s.nextHandle + 1, timeoutRef := none,
         argsRef := none, isPending := false, callbackRef := s.callbackRef },
       [⟨s.callbackRef, a, t'⟩], false) := by
  rw [trigger_of_inv hInv, flush_of_pend_noThrow]
  rfl

theorem flush_executes_pending_witness :
    flush (noThrow (α := String)) 50 (trigger 300 0 "x" (initState String 7 0)) =
      ({ live := [], nextHandle := 1, timeoutRef := none, argsRef := none,
         isPending := false, callbackRef := 7 }, [⟨7, "x", 50⟩], false) :=
  flush_executes_pending_now (initState String 7 0) (inv_init 7 0) 300 0 50 "x"

/-- Claim C4: cancelling while an execution is pending (after a trigger,
before the delay elapses) performs no execution at all: the scheduled
timer is removed from the host, the stored arguments are discarded, the
pending flag is cleared, and no timer remains that could ever fire for
that trigger. -/
theorem cancel_prevents_execution {α : Type} (s : DState α) (hInv : Inv s)
    (d t : Nat) (a : α) :
    cancel (trigger d t a s) =
      { live := [], nextHandle := s.nextHandle + 1, timeoutRef := none,
        argsRef := none, isPending := false, callbackRef := s.callbackRef } ∧
    (∀ t', (step (noThrow (α := α)) d (trigger d t a s) t'
      Ev.cancel).2.1 = []) ∧
    (∀ h t', (h, t') ∉ (cancel (trigger d t a s)).live) := by
  rw [trigger_of_inv hInv, cancel_of_pend]
  exact ⟨rfl, fun t' => rfl, fun h t' => by simp [initState]⟩

theorem cancel_prevents_witness :
    cancel (trigger 300 0 "x" (initState String 7 0)) =
      { live := [], nextHandle := 1, timeoutRef := none, argsRef := none,
        isPending := false, callbackRef := 7 } :=
  (cancel_prevents_execution (initState String 7 0) (inv_init 7 0) 300 0 "x").1

/-- Claim C5: an error raised by the bound action while it is executed —
whether the execution was started by the timer firing or by `flush` —
propagates to the caller of that execution (the Boolean the operation
returns), after exactly one invocation: the controller neither catches,
suppresses nor retries it. -/
theorem action_error_propagates {α : Type} (s : DState α)
    (throws : Nat → α → Bool) (h : Nat) (a : α)
    (href : s.timeoutRef = some h) (ha : s.argsRef = some a)
    (hthrow : throws s.callbackRef a = true) (t t' : Nat) :
    (flush throws t s).2 = ([⟨s.callbackRef, a, t⟩], true) ∧
    (fire throws h t' s).2 = ([⟨s.callbackRef, a, t'⟩], true) := by
  obtain ⟨L, NH, R, A, P, CB⟩ := s
  simp only at href ha hthrow
  subst href
  subst ha
  exact ⟨by simp [flush, hthrow], by simp [fire, fireCallback, hthrow]⟩

theorem action_error_propagates_witness :
    (flush (fun _ _ => true) 10 (pendState Nat 3 1 0 300 7)).2 =
      ([⟨3, 7, 10⟩], true) :=
  (action_error_propagates (pendState Nat 3 1 0 300 7) (fun _ _ => true)
    0 7 rfl rfl rfl 10 10).1

/-- Claim C6: when the bound action throws during `flush` or during the
timer-fire callback, the scheduled timer is already gone (no live
scheduled execution remains; in `flush` the ref is also already reset),
but the statements after the invocation are skipped: the stored
arguments are not discarded and the pending flag is not cleared — the
post-invocation cleanup happens only when the action returns normally. -/
theorem action_error_skips_cleanup {α : Type} (s : DState α) (hInv : Inv s)
    (throws : Nat → α → Bool) (h : Nat) (a : α)
    (href : s.timeoutRef = some h) (ha : s.argsRef = some a)
    (hthrow : throws s.callbackRef a = true) (t t' : Nat) :
    (flush throws t s).1 = { s with live := [], timeoutRef := none } ∧
    (flush throws t s).1.argsRef = some a ∧
    (flush throws t s).1.isPending = s.isPending ∧
    (fire throws h t' s).1 = { s with live := [] } ∧
    (fire throws h t' s).1.argsRef = some a ∧
    (fire throws h t' s).1.isPending = s.isPending := by
  rcases hInv with ⟨hL, hR, hA, hP⟩ | ⟨h1, ft, a1, hL, hR, hA, hP⟩
  · rw [href] at hR
    exact absurd hR (by simp)
  · obtain ⟨L, NH, R, A, P, CB⟩ := s
    simp only at href ha hthrow hL hR hA hP
    subst hL
    subst hR
    subst hA
    subst hP
    injection href with hh
    subst hh
    injection ha with haa
    subst haa
    refine ⟨?_, ?_, ?_, ?_, ?_, ?_⟩ <;>
      simp [flush, fire, fireCallback, clearTimeout, hthrow]

theorem action_error_skips_cleanup_witness :
    (flush (fun _ _ => true) 10 (pendState Nat 3 1 0 300 7)).1 =
      { pendState Nat 3 1 0 300 7 with live := [], timeoutRef := none } :=
  (action_error_skips_cleanup (pendState Nat 3 1 0 300 7) (inv_pend ..)
    (fun _ _ => true) 0 7 rfl rfl rfl 10 10).1

/-- Claim C7: rebinding the action replaces only the bound callback — the
live timer, its fire instant, the stored arguments and the pending flag
are untouched — and takes effect on the next execution, whether fired by
the already-scheduled timer or by `flush`; an execution that fired before
the rebinding used the action bound at fire time. -/
theorem rebind_takes_effect_next_execution {α : Type} (s : DState α)
    (h : Nat) (a : α) (href : s.timeoutRef = some h) (ha : s.argsRef = some a)
    (d f t' cb0 nh0 t0 : Nat) (b : α) (f' : Nat) :
    (rebind f s).live = s.live ∧
    (rebind f s).timeoutRef = s.timeoutRef ∧
    (rebind f s).argsRef = s.argsRef ∧
    (rebind f s).isPending = s.isPending ∧
    (fire (noThrow (α := α)) h t' (rebind f s)).2.1 = [⟨f, a, t'⟩] ∧
    (flush (noThrow (α := α)) t' (rebind f s)).2.1 = [⟨f, a, t'⟩] ∧
    (run (noThrow (α := α)) d (initState α cb0 nh0)
        [(t0, Ev.trigger b), (t0 + d, Ev.fire nh0), (t0 + d, Ev.rebind f')]).2 =
      [⟨cb0, b, t0 + d⟩] := by
  refine ⟨rfl, rfl, rfl, rfl, ?_, ?_, ?_⟩
  · simp [fire, fireCallback, rebind, noThrow, ha]
  · simp [flush, rebind, noThrow, href, ha]
  · simp only [run, step, trigger_init, fire_of_pend_noThrow,
      List.append_nil, List.nil_append]

theorem rebind_takes_effect_witness :
    (fire (noThrow (α := Nat)) 0 300 (rebind 9 (pendState Nat 3 1 0 300 7))).2.1 =
      [⟨9, 7, 300⟩] :=
  (rebind_takes_effect_next_execution (pendState Nat 3 1 0 300 7) 0 7 rfl rfl
    300 9 300 0 0 0 7 4).2.2.2.2.1

/-- Claim C8: with a delay of zero, a trigger call performs no invocation
synchronously within the call itself — it only schedules a timer, due at
the very instant of the call, and the action runs when the host delivers
that timer at its next scheduling opportunity. -/
theorem zero_delay_still_defers {α : Type} (s : DState α) (hInv : Inv s)
    (throws : Nat → α → Bool) (t : Nat) (a : α) :
    (step throws 0 s t (Ev.trigger a)).2.1 = [] ∧
    (trigger 0 t a s).live = [(s.nextHandle, t)] ∧
    (fire (noThrow (α := α)) s.nextHandle t (trigger 0 t a s)).2.1 =
      [⟨s.callbackRef, a, t⟩] := by
  refine ⟨rfl, ?_, ?_⟩
  · rw [trigger_of_inv hInv]
    rfl
  · rw [trigger_of_inv hInv, fire_of_pend_noThrow]

theorem zero_delay_witness :
    (trigger 0 5 "y" (initState String 2 0)).live = [(0, 5)] :=
  (zero_delay_still_defers (initState String 2 0) (inv_init 2 0)
    noThrow 5 "y").2.1

/-- Claim C9: calling `cancel` or `flush` while the controller is idle
(nothing pending) leaves the state bit-for-bit unchanged, performs no
invocation of the bound action, and raises no error. -/
theorem idle_cancel_flush_noop {α : Type} (s : DState α) (hInv : Inv s)
    (hidle : s.isPending = false) :
    cancel s = s ∧
    ∀ (throws : Nat → α → Bool) (t : Nat), flush throws t s = (s, [], false) := by
  rcases hInv with ⟨hL, hR, hA, hP⟩ | ⟨h, ft, a, hL, hR, hA, hP⟩
  · exact ⟨by simp [cancel, hR], fun throws t => by simp [flush, hR]⟩
  · rw [hP] at hidle
    exact absurd hidle (by simp)

theorem idle_noop_witness :
    cancel (initState String 2 0) = initState String 2 0 :=
  (idle_cancel_flush_noop (initState String 2 0) (inv_init 2 0) rfl).1

end Debounce

namespace ToastCtx

/-- The toast kinds of `ToastContext.tsx`. -/
inductive ToastType where
  | success
  | error
  | warning
  | info
deriving Repr, DecidableEq

/-- The toast positions of `ToastContext.tsx`. -/
inductive ToastPosition where
  | topRight
  | topLeft
  | bottomRight
  | bottomLeft
  | topCenter
  | bottomCenter
deriving Repr, DecidableEq

/-- One toast, as stored in the provider state.  The duration is a
number that may be zero or negative (JavaScript numbers are modelled as
integers here; auto-dismiss only inspects the sign). -/
structure Toast where
  id : String
  type : ToastType
  message : String
  title : Option String
  duration : Int
  position : ToastPosition
deriving Repr, DecidableEq

/-- The options object accepted by `notify`. -/
structure ToastOptions where
  title : Option String := none
  duration : Option Int := none
  position : Option ToastPosition := none
deriving Repr, DecidableEq

def DEFAULT_DURATION : Int := 5000

def DEFAULT_POSITION : ToastPosition := ToastPosition.topRight

/-- The provider state: the toast list, and the auto-dismiss timers the
host currently has scheduled, as pairs `(fireAt, id)`. -/
structure TState where
  toasts : List Toast
  timers : List (Int × String)
deriving Repr, DecidableEq

/-- The toast `notify` builds (ToastContext.tsx lines 76-83): defaults
applied to the missing options. -/
def mkToast (id : String) (ty : ToastType) (message : String)
    (opts : ToastOptions) : Toast :=
  { id := id, type := ty, message := message, title := opts.title,
    duration := opts.duration.getD DEFAULT_DURATION,
    position := opts.position.getD DEFAULT_POSITION }

/-- `dismiss` (ToastContext.tsx lines 60-62): remove every toast with the
given id from the list. -/
def dismiss (s : TState) (id : String) : TState :=
  { s with toasts := s.toasts.filter fun t => decide (t.id ≠ id) }

/-- `dismissAll` (ToastContext.tsx lines 64-66). -/
def dismissAll (s : TState) : TState :=
  { s with toasts := [] }

/-- `notify` (ToastContext.tsx lines 68-97), with the generated id and
the current instant supplied explicitly: append the toast, and, only
when its duration is positive, schedule an auto-dismiss of its id to run
`duration` after now. -/
def notify (s : TState) (id : String) (now : Int) (ty : ToastType)
    (message : String) (opts : ToastOptions) : TState :=
  let toast := mkToast id ty message opts
  let s1 : TState := { s with toasts := s.toasts ++ [toast] }
  if toast.duration > 0 then
    { s1 with timers := s1.timers ++ [(now + toast.duration, id)] }
  else
    s1

/-- The events the toast store can undergo.  A `fire` event is the host
delivering a scheduled auto-dismiss timer: it only has an effect when
that timer is actually scheduled, and then it removes the timer and runs
`dismiss` on the timer's id. -/
inductive TEv where
  | notify (id : String) (now : Int) (ty : ToastType) (message : String)
      (opts : ToastOptions)
  | dismiss (id : String)
  | dismissAll
  | fire (fireAt : Int) (id : String)
deriving Repr, DecidableEq

def tstep (s : TState) : TEv → TState
  | .notify id now ty message opts => notify s id now ty message opts
  | .dismiss id => dismiss s id
  | .dismissAll => dismissAll s
  | .fire f id =>
      if (f, id) ∈ s.timers then
        dismiss { s with timers := s.timers.filter fun p => decide (p ≠ (f, id)) } id
      else
        s

def runT (s : TState) : List TEv → TState
  | [] => s
  | e :: evs => runT (tstep s e) evs

/-- Events that neither dismiss the toast with id `tid` directly nor
create a new toast or timer under that id. -/
def keepsId (tid : String) : TEv → Prop
  | .notify id _ _ _ _ => id ≠ tid
  | .dismiss id => id ≠ tid
  | .dismissAll => False
  | .fire _ _ => True

/-- A toast whose id no scheduled timer targets survives every event
sequence that avoids its id. -/
lemma toast_persists (tid : String) (tt : Toast) (htt : tt.id = tid) :
    ∀ (evs : List TEv) (s : TState), tt ∈ s.toasts →
      (∀ p ∈ s.timers, p.2 ≠ tid) → (∀ e ∈ evs, keepsId tid e) →
      tt ∈ (runT s evs).toasts := by
  intro evs
  induction evs with
  | nil => intro s hmem _ _; exact hmem
  | cons e rest ih =>
      intro s hmem htimers hkeep
      have hke : keepsId tid e := hkeep e (List.mem_cons_self e rest)
      have hkrest : ∀ e' ∈ rest, keepsId tid e' :=
        fun e' he' => hkeep e' (List.mem_cons_of_mem e he')
      show tt ∈ (runT (tstep s e) rest).toasts
      cases e with
      | notify id now ty message opts =>
          refine ih (tstep s (.notify id now ty message opts)) ?_ ?_ hkrest
          · show tt ∈ (notify s id now ty message opts).toasts
            simp only [notify]
            by_cases hdur : (mkToast id ty message opts).duration > 0 <;>
              simp [hdur, List.mem_append, hmem]
          · intro p hp
            show p.2 ≠ tid
            by_cases hdur : (mkToast id ty message opts).duration > 0
            · simp only [tstep, notify, if_pos hdur, List.mem_append,
                List.mem_singleton] at hp
              rcases hp with hp1 | hp2
              · exact htimers p hp1
              · subst hp2
                exact hke
            · simp only [tstep, notify, if_neg hdur] at hp
              exact htimers p hp
      | dismiss id =>
          refine ih (tstep s (.dismiss id)) ?_ htimers hkrest
          show tt ∈ (dismiss s id).toasts
          simp only [dismiss, List.mem_filter]
          refine ⟨hmem, ?_⟩
          have hid : id ≠ tid := hke
          rw [htt]
          simpa using hid.symm
      | dismissAll => exact absurd hke (by simp [keepsId])
      | fire f id =>
          by_cases hsch : (f, id) ∈ s.timers
          · have hid : id ≠ tid := by
              have := htimers (f, id) hsch
              simpa using this
            refine ih (tstep s (.fire f id)) ?_ ?_ hkrest
            · show tt ∈ (tstep s (.fire f id)).toasts
              simp only [tstep, hsch, if_pos, dismiss, List.mem_filter]
              refine ⟨hmem, ?_⟩
              rw [htt]
              simpa using hid.symm
            · intro p hp
              simp only [tstep, hsch, if_pos, dismiss] at hp
              exact htimers p (List.mem_of_mem_filter hp)
          · refine ih (tstep s (.fire f id)) ?_ ?_ hkrest <;>
              simp only [tstep, hsch, if_neg, not_false_iff]
            · exact hmem
            · exact htimers

/-- Claim C10: a `notify` call whose duration option is ≤ 0 schedules no
auto-dismiss — the created toast is appended to the list and survives
every later event sequence that neither dismisses its id, dismisses all,
nor reuses its id — while a duration option > 0 schedules an
auto-dismiss of exactly that toast's id, due `duration` after now. -/
theorem notify_duration_dismiss_policy (s : TState) (tid : String)
    (now : Int) (ty : ToastType) (msg : String) (opts : ToastOptions)
    (dur : Int) (hdur : opts.duration = some dur) :
    (dur ≤ 0 →
      (notify s tid now ty msg opts).timers = s.timers ∧
      (notify s tid now ty msg opts).toasts =
        s.toasts ++ [mkToast tid ty msg opts] ∧
      (∀ evs : List TEv, (∀ p ∈ s.timers, p.2 ≠ tid) →
        (∀ e ∈ evs, keepsId tid e) →
        mkToast tid ty msg opts ∈
          (runT (notify s tid now ty msg opts) evs).toasts)) ∧
    (0 < dur →
      (notify s tid now ty msg opts).timers = s.timers ++ [(now + dur, tid)] ∧
      (notify s tid now ty msg opts).toasts =
        s.toasts ++ [mkToast tid ty msg opts]) := by
  have hd : (mkToast tid ty msg opts).duration = dur := by
    simp [mkToast, hdur]
  constructor
  · intro hle
    have hpos : ¬(mkToast tid ty msg opts).duration > 0 := by
      rw [hd]
      omega
    refine ⟨by simp [notify, if_neg hpos], by simp [notify, if_neg hpos], ?_⟩
    intro evs htimers hkeep
    refine toast_persists tid (mkToast tid ty msg opts) rfl evs
      (notify s tid now ty msg opts) ?_ ?_ hkeep
    · simp [notify, if_neg hpos]
    · intro p hp
      simp only [notify, if_neg hpos] at hp
      exact htimers p hp
  · intro hgt
    have hpos : (mkToast tid ty msg opts).duration > 0 := by
      rw [hd]
      exact hgt
    exact ⟨by simp [notify, hd, hgt], by simp [notify, if_pos hpos]⟩

theorem notify_duration_witness :
    (notify ⟨[], []⟩ "a" 0 ToastType.info "m"
      { title := none, duration := some 0, position := none }).timers = [] :=
  ((notify_duration_dismiss_policy ⟨[], []⟩ "a" 0 ToastType.info "m"
    { title := none, duration := some 0, position := none } 0 rfl).1
    (by decide)).1

end ToastCtx

section DebounceSanity

open Debounce

example : trigger 300 0 "a" (initState String 7 0) =
    pendState String 7 1 0 300 "a" := by
  decide

example : cancel (trigger 300 0 "a" (initState String 7 0)) =
    initState String 7 1 := by
  decide

example : flush noThrow 50 (trigger 300 0 "x" (initState String 7 0)) =
    (initState String 7 1, [⟨7, "x", 50⟩], false) := by
  decide

example : fire noThrow 0 300 (trigger 300 0 "a" (initState String 7 0)) =
    (initState String 7 1, [⟨7, "a", 300⟩], false) := by
  decide

end DebounceSanity
